import Mathlib

/-!
Verification of the work-partitioning / checkpoint-resume algorithm and the
result-collation algorithm of the `mpirun_nlogo` scripts
(`mpirun_nlogo.py`, `nlogo_io.py`, `collect_data.py`).

Each definition is a shallow embedding of the corresponding piece of the
Python source; file I/O is made explicit (file contents are passed as lists
of lines, a crash of the Python code is modelled as `none` / `Option.none`).
-/

namespace MpirunNlogo

/-- Python `range(start, stop, step)` as a list, for a positive `step`.
This is the index iterator of the main sweep loop
`for exp_i in range(exp_start_i, num_individual_runs, mpi_size)`
in `mpirun_nlogo.py` (`main`).  `(stop - start + step - 1) / step` is the
number of elements `start, start+step, ...` that are `< stop`. -/
def pyRange (start stop step : Nat) : List Nat :=
  List.range' start ((stop - start + step - 1) / step) step

theorem pyRange_of_ge {start stop : Nat} (step : Nat) (h : stop ≤ start) :
    pyRange start stop step = [] := by
  unfold pyRange
  have h0 : stop - start = 0 := Nat.sub_eq_zero_of_le h
  rw [h0]
  rcases Nat.eq_zero_or_pos step with hs | hs
  · subst hs; rfl
  · have hlt : 0 + step - 1 < step := by omega
    rw [Nat.div_eq_of_lt hlt]
    exact List.range'_zero

theorem pyRange_step_zero (start stop : Nat) : pyRange start stop 0 = [] := by
  unfold pyRange
  rw [Nat.div_zero]
  exact List.range'_zero

theorem pyRange_of_lt {start stop step : Nat} (h1 : start < stop) (h2 : 0 < step) :
    pyRange start stop step = start :: pyRange (start + step) stop step := by
  unfold pyRange
  have hcount : (stop - start + step - 1) / step
      = (stop - (start + step) + step - 1) / step + 1 := by
    rcases le_or_lt stop (start + step) with hle | hlt
    · have e1 : stop - (start + step) = 0 := by omega
      rw [e1]
      have e2 : (0 + step - 1) / step = 0 := Nat.div_eq_of_lt (by omega)
      rw [e2]
      have e3 : stop - start + step - 1 = (stop - start - 1) + step := by omega
      rw [e3, Nat.add_div_right _ h2]
      have e4 : (stop - start - 1) / step = 0 := Nat.div_eq_of_lt (by omega)
      omega
    · have e1 : stop - (start + step) + step - 1 = stop - start - 1 := by omega
      have e2 : stop - start + step - 1 = (stop - start - 1) + step := by omega
      rw [e1, e2, Nat.add_div_right _ h2]
  rw [hcount]
  exact List.range'_succ _ _ _

theorem mem_pyRange {i start stop step : Nat} (hstep : 0 < step) :
    i ∈ pyRange start stop step ↔ ∃ k, i = start + step * k ∧ i < stop := by
  unfold pyRange
  rw [List.mem_range']
  constructor
  · rintro ⟨k, hk, rfl⟩
    refine ⟨k, rfl, ?_⟩
    have h1 : k + 1 ≤ (stop - start + step - 1) / step := hk
    have h2 : (k + 1) * step ≤ stop - start + step - 1 :=
      (Nat.le_div_iff_mul_le hstep).mp h1
    have h3 : (k + 1) * step = step * k + step := by ring
    omega
  · rintro ⟨k, rfl, hlt⟩
    refine ⟨k, ?_, rfl⟩
    have h3 : (k + 1) * step = step * k + step := by ring
    have h2 : (k + 1) * step ≤ stop - start + step - 1 := by omega
    have h1 := (Nat.le_div_iff_mul_le hstep).mpr h2
    omega

/-- C1: for every worker count `W ≥ 1` and experiment size `S`, the per-rank
index sets `range(r, S, W)` (the assignment each rank processes for one
experiment in `main` of `mpirun_nlogo.py` when no checkpoint is present)
cover every index `i < S` through exactly one rank (union is `{0,...,S-1}`
and the sets of distinct ranks are pairwise disjoint), and no rank is ever
assigned an index `≥ S`. -/
theorem round_robin_partition (W S : Nat) (hW : 0 < W) :
    (∀ i, i < S → ∃! r, r < W ∧ i ∈ pyRange r S W) ∧
    (∀ r i, i ∈ pyRange r S W → i < S) := by
  constructor
  · intro i hi
    refine ⟨i % W, ⟨Nat.mod_lt _ hW, ?_⟩, ?_⟩
    · rw [mem_pyRange hW]
      exact ⟨i / W, (Nat.mod_add_div i W).symm, hi⟩
    · rintro r ⟨hrW, hmem⟩
      rw [mem_pyRange hW] at hmem
      obtain ⟨k, hik, _⟩ := hmem
      rw [hik, Nat.add_mul_mod_self_left, Nat.mod_eq_of_lt hrW]
  · intro r i hmem
    rcases Nat.eq_zero_or_pos W with h0 | hpos
    · subst h0; rw [pyRange_step_zero] at hmem; exact absurd hmem (List.not_mem_nil _)
    · rw [mem_pyRange hpos] at hmem
      obtain ⟨k, -, hlt⟩ := hmem
      exact hlt

theorem round_robin_partition_witness :
    (0 < 2) ∧
    ((∀ i, i < 5 → ∃! r, r < 2 ∧ i ∈ pyRange r 5 2) ∧
     (∀ r i, i ∈ pyRange r 5 2 → i < 5)) :=
  ⟨by decide, round_robin_partition 2 5 (by decide)⟩

/-- `expandValueSets` from `nlogo_io.py`: the recursive generator over
`value_tuples` (a list of `(variable_name, values)` pairs), materialized as
the list of all combinations in nested order (first tuple varying slowest),
exactly as `main` materializes it into `exp_all`.  On an empty input list
the Python generator raises `IndexError` (`value_tuples[0]` in the `else`
branch), modelled as `none`. -/
def expandValueSets {α : Type} : List (String × List α) → Option (List (List (String × α)))
  | [] => none
  | [(name, vals)] => some (vals.map fun v => [(name, v)])
  | (name, vals) :: rest =>
    (expandValueSets rest).map fun tails =>
      vals.flatMap fun v => tails.map fun t => (name, v) :: t

/-- The combination-space size, accumulated in `main` of `mpirun_nlogo.py`
by `num_individual_runs *= len(value_tuples[-1][1])` (and identically in
`get_experiment_lengths`): the product of the per-tuple value counts. -/
def num_individual_runs {α : Type} (l : List (String × List α)) : Nat :=
  (l.map fun p => p.2.length).prod

/-- Modelled from the spec: mixed-radix direct indexing into the Value-Set
Expander ("given an arbitrary target index `i` in `[0, total)`, produce the
`i`-th combination directly by mixed-radix decomposition of `i` against the
per-spec value counts"), with the first spec as the slowest-varying digit.
Stated from the spec's words, to be compared with the sequence the source's
`expandValueSets` enumerates. -/
def mixedRadixCombo {α : Type} : List (String × List α) → Nat → Option (List (String × α))
  | [], _ => some []
  | (name, vals) :: rest, i =>
    (vals[i / num_individual_runs rest]?).bind fun v =>
      (mixedRadixCombo rest (i % num_individual_runs rest)).map fun t => (name, v) :: t

theorem num_individual_runs_pos {α : Type} (l : List (String × List α))
    (h : ∀ p ∈ l, p.2 ≠ []) : 0 < num_individual_runs l := by
  induction l with
  | nil => simp [num_individual_runs]
  | cons p ps ih =>
    simp only [num_individual_runs, List.map_cons, List.prod_cons]
    exact Nat.mul_pos (List.length_pos.mpr (h p (List.mem_cons_self _ _)))
      (ih fun q hq => h q (List.mem_cons_of_mem _ hq))

theorem length_flatMap_const {α β : Type} (l : List α) (f : α → List β) (L : Nat)
    (h : ∀ a ∈ l, (f a).length = L) : (l.flatMap f).length = l.length * L := by
  induction l with
  | nil => simp
  | cons a as ih =>
    simp only [List.flatMap_cons, List.length_append, List.length_cons]
    rw [h a (List.mem_cons_self a as), ih fun b hb => h b (List.mem_cons_of_mem a hb)]
    ring

theorem getElem?_flatMap_const {α β : Type} (l : List α) (f : α → List β) (L : Nat)
    (h : ∀ a ∈ l, (f a).length = L) :
    ∀ i, i < l.length * L → (l.flatMap f)[i]? = l[i / L]?.bind fun a => (f a)[i % L]? := by
  induction l with
  | nil => intro i hi; simp at hi
  | cons a as ih =>
    intro i hi
    rcases Nat.eq_zero_or_pos L with rfl | hLpos
    · simp at hi
    by_cases hiL : i < L
    · rw [List.flatMap_cons,
        List.getElem?_append_left (by rw [h a (List.mem_cons_self a as)]; exact hiL),
        Nat.div_eq_of_lt hiL, Nat.mod_eq_of_lt hiL]
      simp
    · obtain ⟨j, rfl⟩ : ∃ j, i = L + j := ⟨i - L, by omega⟩
      have hfa : (f a).length = L := h a (List.mem_cons_self a as)
      rw [List.flatMap_cons, List.getElem?_append_right (by omega), hfa]
      have e1 : L + j - L = j := by omega
      have hj : j < as.length * L := by
        have e : (as.length + 1) * L = as.length * L + L := by ring
        simp only [List.length_cons] at hi
        omega
      rw [e1, ih (fun b hb => h b (List.mem_cons_of_mem a hb)) j hj]
      have e2 : (L + j) / L = j / L + 1 := by
        rw [Nat.add_comm L j, Nat.add_div_right _ hLpos]
      have e3 : (L + j) % L = j % L := by
        rw [Nat.add_comm L j, Nat.add_mod_right]
      rw [e2, e3]
      simp

theorem expand_mixed_radix_aux {α : Type} :
    ∀ l : List (String × List α), l ≠ [] → (∀ p ∈ l, p.2 ≠ []) →
      ∃ out, expandValueSets l = some out ∧
        out.length = num_individual_runs l ∧
        ∀ i, i < num_individual_runs l → out[i]? = mixedRadixCombo l i
  | [], hne, _ => absurd rfl hne
  | [(name, vals)], _, _ => by
    refine ⟨vals.map fun v => [(name, v)], rfl, ?_, ?_⟩
    · simp [num_individual_runs]
    · intro i hi
      simp only [List.getElem?_map, mixedRadixCombo]
      rw [show num_individual_runs ([] : List (String × List α)) = 1 from rfl, Nat.div_one]
      cases vals[i]? <;> rfl
  | (name, vals) :: q :: rest, _, hvals => by
    obtain ⟨tails, htails, hlen, hget⟩ :=
      expand_mixed_radix_aux (q :: rest) (by simp)
        (fun p hp => hvals p (List.mem_cons_of_mem _ hp))
    have hL : 0 < num_individual_runs (q :: rest) :=
      num_individual_runs_pos _ fun p hp => hvals p (List.mem_cons_of_mem _ hp)
    have hmaplen : ∀ v ∈ vals, ((fun v => tails.map fun t => (name, v) :: t) v).length
        = num_individual_runs (q :: rest) := by
      intro v _
      rw [List.length_map, hlen]
    have hnum : num_individual_runs ((name, vals) :: q :: rest)
        = vals.length * num_individual_runs (q :: rest) := by
      simp [num_individual_runs]
    refine ⟨vals.flatMap fun v => tails.map fun t => (name, v) :: t, ?_, ?_, ?_⟩
    · rw [show expandValueSets ((name, vals) :: q :: rest)
          = (expandValueSets (q :: rest)).map fun tails =>
              vals.flatMap fun v => tails.map fun t => (name, v) :: t from rfl,
        htails]
      rfl
    · rw [length_flatMap_const _ _ _ hmaplen, hnum]
    · intro i hi
      rw [hnum] at hi
      rw [getElem?_flatMap_const _ _ _ hmaplen i hi]
      show _ = (vals[i / num_individual_runs (q :: rest)]?).bind fun v =>
        (mixedRadixCombo (q :: rest) (i % num_individual_runs (q :: rest))).map
          fun t => (name, v) :: t
      rw [← hget _ (Nat.mod_lt _ hL)]
      cases vals[i / num_individual_runs (q :: rest)]? with
      | none => rfl
      | some v => simp

/-- C4: for every non-empty list of value tuples (each with at least one
value), `expandValueSets` yields a sequence whose total length is the
product of the per-tuple value counts, and for every index `i` below that
product, the `i`-th element obtained by direct indexing into the
materialized sequence (`exp_all[exp_i]` in `main`) equals the spec's
mixed-radix decomposition of `i` — i.e. full sequential enumeration and
direct indexing agree everywhere, in nested order with the first tuple
varying slowest. -/
theorem expandValueSets_mixed_radix {α : Type} (l : List (String × List α))
    (hne : l ≠ []) (hvals : ∀ p ∈ l, p.2 ≠ []) :
    ∃ out, expandValueSets l = some out ∧
      out.length = num_individual_runs l ∧
      ∀ i, i < num_individual_runs l → out[i]? = mixedRadixCombo l i :=
  expand_mixed_radix_aux l hne hvals

theorem expandValueSets_mixed_radix_witness :
    ([("a", [0, 1]), ("b", [2, 3, 4])] : List (String × List Nat)) ≠ [] ∧
    (∀ p ∈ ([("a", [0, 1]), ("b", [2, 3, 4])] : List (String × List Nat)), p.2 ≠ []) ∧
    (∃ out, expandValueSets ([("a", [0, 1]), ("b", [2, 3, 4])] : List (String × List Nat))
        = some out ∧
      out.length = num_individual_runs ([("a", [0, 1]), ("b", [2, 3, 4])] : List (String × List Nat)) ∧
      ∀ i, i < num_individual_runs ([("a", [0, 1]), ("b", [2, 3, 4])] : List (String × List Nat)) →
        out[i]? = mixedRadixCombo ([("a", [0, 1]), ("b", [2, 3, 4])] : List (String × List Nat)) i) :=
  ⟨by decide, by decide,
    expandValueSets_mixed_radix [("a", [0, 1]), ("b", [2, 3, 4])] (by decide) (by decide)⟩

/-- The full (experiment, index) sequence a rank executes over the ordered
experiment list `exps` (pairs of experiment name and combination-space
size) in an uninterrupted run: `main` of `mpirun_nlogo.py` iterates
`range(rank, size, mpi_size)` for every selected experiment in declaration
order. -/
def allRun (rank W : Nat) (exps : List (String × Nat)) : List (String × Nat) :=
  exps.flatMap fun p => (pyRange rank p.2 W).map fun k => (p.1, k)

/-- The (experiment, index) sequence the `main` loop of `mpirun_nlogo.py`
executes from a resume point `(startExp, startI)`: before `started` is set,
an experiment whose name is not `startExp` is skipped
(`exp_start_i = num_individual_runs + 1`), the experiment named `startExp`
starts at `startI` and sets `started`, and every later experiment starts at
`mpi_rank`. -/
def runFrom (rank W : Nat) (startExp : String) (startI : Nat) :
    Bool → List (String × Nat) → List (String × Nat)
  | _, [] => []
  | started, (name, size) :: rest =>
    ((pyRange (if started then rank else if name = startExp then startI else size + 1)
        size W).map fun k => (name, k))
      ++ runFrom rank W startExp startI (started || decide (name = startExp)) rest

/-- The experiment-locating loop of `get_start_run` in `mpirun_nlogo.py`
(`for exp_i in range(num_exp): if last_exp_name == experiment_names[exp_i]: ...`),
over the zipped list of experiment names and lengths.  Falling off the loop
without a `break` leaves `start_exp` unbound (an `UnboundLocalError` at the
`return`), modelled as `none`. -/
def start_run_loop (last_exp : String) (last_i : Int) (rank W : Nat) :
    List (String × Nat) → Option (String × Nat)
  | [] => none
  | (name, len) :: rest =>
    if last_exp = name then
      if last_i + W < (len : Int) then some (name, (last_i + W).toNat)
      else
        match rest with
        | (name2, _) :: _ => some (name2, rank)
        | [] => some (name, (last_i + W).toNat)
    else start_run_loop last_exp last_i rank W rest

/-- `get_start_run` of `mpirun_nlogo.py`, decoupled from the file read: the
checkpoint `(last_exp, last_i)` that `get_last_run` recovers from the
worker's own output file is passed in directly, `last_i = -1` meaning "no
checkpoint" (a missing file).  With no checkpoint the worker starts at
`(experiment_names[0], mpi_rank)`; `none` models the uncaught Python error
when the experiment list is empty or the checkpointed name is not found. -/
def get_start_run (exps : List (String × Nat)) (last_exp : String) (last_i : Int)
    (rank W : Nat) : Option (String × Nat) :=
  if last_i > -1 then start_run_loop last_exp last_i rank W exps
  else exps.head?.map fun p => (p.1, rank)

theorem allRun_cons (rank W : Nat) (n : String) (s : Nat) (rest : List (String × Nat)) :
    allRun rank W ((n, s) :: rest)
      = ((pyRange rank s W).map fun k => (n, k)) ++ allRun rank W rest := by
  simp [allRun]

theorem runFrom_started (rank W : Nat) (se : String) (si : Nat) :
    ∀ l, runFrom rank W se si true l = allRun rank W l := by
  intro l
  induction l with
  | nil => rfl
  | cons p rest ih =>
    obtain ⟨n, s⟩ := p
    rw [runFrom, allRun_cons]
    simp only [if_true, Bool.true_or]
    rw [ih]

theorem runFrom_skip {n se : String} (rank W : Nat) (si s : Nat)
    (l : List (String × Nat)) (h : n ≠ se) :
    runFrom rank W se si false ((n, s) :: l) = runFrom rank W se si false l := by
  have hp : pyRange (s + 1) s W = [] := pyRange_of_ge W (Nat.le_succ s)
  rw [runFrom]
  simp [h, hp]

theorem runFrom_head (rank W : Nat) (n : String) (si s : Nat) (l : List (String × Nat)) :
    runFrom rank W n si false ((n, s) :: l)
      = ((pyRange si s W).map fun k => (n, k)) ++ allRun rank W l := by
  rw [runFrom]
  simp [runFrom_started]

theorem fst_mem_of_mem_allRun {rank W : Nat} {e : String} {i : Nat} :
    ∀ {l : List (String × Nat)}, (e, i) ∈ allRun rank W l → e ∈ l.map Prod.fst := by
  intro l
  induction l with
  | nil => intro h; simp [allRun] at h
  | cons p rest ih =>
    intro h
    obtain ⟨n, s⟩ := p
    rw [allRun_cons] at h
    rcases List.mem_append.mp h with h1 | h1
    · obtain ⟨j, hj, hje⟩ := List.mem_map.mp h1
      obtain ⟨he, -⟩ := Prod.mk.inj hje
      subst he
      exact List.mem_cons_self _ _
    · exact List.mem_cons_of_mem _ (ih h1)

theorem start_run_loop_fst_mem {e : String} {li : Int} {rank W : Nat} :
    ∀ {l : List (String × Nat)} {se : String} {si : Nat},
      start_run_loop e li rank W l = some (se, si) → se ∈ l.map Prod.fst := by
  intro l
  induction l with
  | nil => intro se si h; exact absurd h (by simp [start_run_loop])
  | cons p rest ih =>
    intro se si h
    obtain ⟨n, s⟩ := p
    by_cases h1 : e = n
    · by_cases h2 : li + W < (s : Int)
      · rw [show start_run_loop e li rank W ((n, s) :: rest) = some (n, (li + W).toNat)
            from by simp [start_run_loop, h1, h2]] at h
        obtain ⟨he, -⟩ := Prod.mk.inj (Option.some.inj h)
        subst he
        exact List.mem_cons_self _ _
      · cases rest with
        | nil =>
          rw [show start_run_loop e li rank W [(n, s)] = some (n, (li + W).toNat)
              from by simp [start_run_loop, h1, h2]] at h
          obtain ⟨he, -⟩ := Prod.mk.inj (Option.some.inj h)
          subst he
          exact List.mem_cons_self _ _
        | cons q qs =>
          rw [show start_run_loop e li rank W ((n, s) :: q :: qs) = some (q.1, rank)
              from by simp [start_run_loop, h1, h2]] at h
          obtain ⟨he, -⟩ := Prod.mk.inj (Option.some.inj h)
          subst he
          exact List.mem_cons_of_mem _ (by simp)
    · rw [show start_run_loop e li rank W ((n, s) :: rest) = start_run_loop e li rank W rest
          from by simp [start_run_loop, h1]] at h
      exact List.mem_cons_of_mem _ (ih h)

theorem pyRange_decomp {W : Nat} (hW : 0 < W) :
    ∀ fuel start s i, s - start ≤ fuel → i ∈ pyRange start s W →
      ∃ pre, pyRange start s W = pre ++ i :: pyRange (i + W) s W ∧ i ∉ pre := by
  intro fuel
  induction fuel with
  | zero =>
    intro start s i hle hmem
    rw [pyRange_of_ge W (by omega)] at hmem
    exact absurd hmem (List.not_mem_nil _)
  | succ fuel ih =>
    intro start s i hle hmem
    by_cases hss : start < s
    · rw [pyRange_of_lt hss hW] at hmem
      rcases List.mem_cons.mp hmem with rfl | hmem'
      · exact ⟨[], by rw [pyRange_of_lt hss hW]; rfl, List.not_mem_nil _⟩
      · obtain ⟨pre, hpre, hnot⟩ := ih (start + W) s i (by omega) hmem'
        refine ⟨start :: pre, ?_, ?_⟩
        · rw [pyRange_of_lt hss hW, hpre]
          rfl
        · intro hc
          rcases List.mem_cons.mp hc with rfl | h2
          · rw [mem_pyRange hW] at hmem'
            obtain ⟨k, hk, -⟩ := hmem'
            omega
          · exact hnot h2
    · rw [pyRange_of_ge W (by omega)] at hmem
      exact absurd hmem (List.not_mem_nil _)

/-- C2: for every ordered experiment list, rank and worker count, and for
every checkpoint `(e, i)` that rank `r` itself would have processed, the
resume point computed by `get_start_run` followed by the `main` loop's
stride-`W` iteration with rollover-at-rank (`runFrom`) reproduces exactly
the remaining (experiment, index) sequence that an uninterrupted run
(`allRun`) would have produced after completing `(e, i)`: resume at `i + W`
within the same experiment if `i + W < size`, else at index `rank` in the
next experiment, else no new work.  Experiment names are assumed distinct,
as they identify experiments. -/
theorem get_start_run_resume (exps : List (String × Nat)) (rank W : Nat)
    (hW : 0 < W) (e : String) (i : Nat)
    (hnd : (exps.map Prod.fst).Nodup)
    (hmem : (e, i) ∈ allRun rank W exps) :
    ∃ se si, get_start_run exps e (i : Int) rank W = some (se, si) ∧
      ∃ pre, allRun rank W exps = pre ++ (e, i) :: runFrom rank W se si false exps ∧
        (e, i) ∉ pre := by
  have hgt : ((i : Int) > -1) := by omega
  rw [get_start_run, if_pos hgt]
  clear hgt
  revert hnd hmem
  induction exps with
  | nil =>
    intro hnd hmem
    simp [allRun] at hmem
  | cons p rest ih =>
    intro hnd hmem
    obtain ⟨n, s⟩ := p
    have hnd1 : n ∉ rest.map Prod.fst := (List.nodup_cons.mp (by simpa using hnd)).1
    have hnd2 : (rest.map Prod.fst).Nodup := (List.nodup_cons.mp (by simpa using hnd)).2
    rw [allRun_cons] at hmem
    rcases List.mem_append.mp hmem with hin | hin
    · obtain ⟨j, hj, hje⟩ := List.mem_map.mp hin
      obtain ⟨he, hi'⟩ := Prod.mk.inj hje
      subst he
      subst hi'
      by_cases hlt : (j : Int) + W < (s : Int)
      · have htn : ((j : Int) + (W : Int)).toNat = j + W := by omega
        refine ⟨n, j + W, by simp [start_run_loop, hlt, htn], ?_⟩
        obtain ⟨pre0, hdec, hnpre⟩ := pyRange_decomp hW (s - rank) rank s j le_rfl hj
        refine ⟨pre0.map fun k => (n, k), ?_, ?_⟩
        · rw [allRun_cons, hdec, runFrom_head, List.map_append]
          simp [List.append_assoc]
        · intro hc
          obtain ⟨k, hk, hke⟩ := List.mem_map.mp hc
          obtain ⟨-, hk2⟩ := Prod.mk.inj hke
          exact hnpre (hk2 ▸ hk)
      · have hge : s ≤ j + W := by omega
        have hnil : pyRange (j + W) s W = [] := pyRange_of_ge W hge
        obtain ⟨pre0, hdec, hnpre⟩ := pyRange_decomp hW (s - rank) rank s j le_rfl hj
        rw [hnil] at hdec
        have hnotpre : (n, j) ∉ pre0.map fun k => (n, k) := by
          intro hc
          obtain ⟨k, hk, hke⟩ := List.mem_map.mp hc
          obtain ⟨-, hk2⟩ := Prod.mk.inj hke
          exact hnpre (hk2 ▸ hk)
        cases rest with
        | nil =>
          have htn : ((j : Int) + (W : Int)).toNat = j + W := by omega
          refine ⟨n, j + W, by simp [start_run_loop, hlt, htn], ?_⟩
          refine ⟨pre0.map fun k => (n, k), ?_, hnotpre⟩
          rw [allRun_cons, hdec, runFrom_head, hnil]
          simp [allRun]
        | cons q qs =>
          obtain ⟨n2, s2⟩ := q
          refine ⟨n2, rank, by simp [start_run_loop, hlt], ?_⟩
          have hq : n ≠ n2 := fun hqe => hnd1 (by rw [hqe]; simp)
          refine ⟨pre0.map fun k => (n, k), ?_, hnotpre⟩
          rw [allRun_cons, hdec, runFrom_skip _ _ _ _ _ hq, runFrom_head, List.map_append]
          rw [allRun_cons]
          simp [List.append_assoc]
    · have hefst : e ∈ rest.map Prod.fst := fst_mem_of_mem_allRun hin
      have hne : e ≠ n := fun h => hnd1 (h ▸ hefst)
      obtain ⟨se, si, hloop, pre, hdecomp, hnpre⟩ := ih hnd2 hin
      refine ⟨se, si, ?_, ?_⟩
      · rw [show start_run_loop e (i : Int) rank W ((n, s) :: rest)
            = start_run_loop e (i : Int) rank W rest from by simp [start_run_loop, hne]]
        exact hloop
      · have hse : se ∈ rest.map Prod.fst := start_run_loop_fst_mem hloop
        have hnse : n ≠ se := fun h => hnd1 (h ▸ hse)
        refine ⟨((pyRange rank s W).map fun k => (n, k)) ++ pre, ?_, ?_⟩
        · rw [allRun_cons, hdecomp, runFrom_skip _ _ _ _ _ hnse, List.append_assoc]
        · intro hc
          rcases List.mem_append.mp hc with h1 | h1
          · obtain ⟨k, hk, hke⟩ := List.mem_map.mp h1
            obtain ⟨h2, -⟩ := Prod.mk.inj hke
            exact hne h2.symm
          · exact hnpre h1

theorem get_start_run_resume_witness :
    (0 < 2) ∧
    ((([("a", 3), ("b", 2)] : List (String × Nat)).map Prod.fst).Nodup) ∧
    (("a", 2) ∈ allRun 0 2 [("a", 3), ("b", 2)]) ∧
    (∃ se si, get_start_run [("a", 3), ("b", 2)] "a" ((2 : Nat) : Int) 0 2 = some (se, si) ∧
      ∃ pre, allRun 0 2 [("a", 3), ("b", 2)]
          = pre ++ ("a", 2) :: runFrom 0 2 se si false [("a", 3), ("b", 2)] ∧
        ("a", 2) ∉ pre) :=
  ⟨by decide, by decide, by decide,
    get_start_run_resume [("a", 3), ("b", 2)] 0 2 (by decide) "a" 2 (by decide) (by decide)⟩

/-- The `while` loop of `steppedValueSet` in `nlogo_io.py`, with the
floating-point values modelled as exact rationals.  The loop keeps the
source's accumulate-by-count structure: at counter `n` the candidate value
is recomputed as `first + n * step` (not by repeated addition), appended
while `val <= last`.  The loop has no bound of its own, so it is modelled
with explicit fuel; `none` means the fuel ran out before the loop
exited. -/
def steppedLoop (first step last : ℚ) : Nat → Nat → Option (List ℚ)
  | 0, _ => none
  | fuel + 1, n =>
    let val := first + (n : ℚ) * step
    if val ≤ last then (steppedLoop first step last fuel (n + 1)).map fun vs => val :: vs
    else some []

/-- `steppedValueSet(first, step, last)` of `nlogo_io.py`: the loop started
at `n = 0`, `val = first`. -/
def steppedValueSet (first step last : ℚ) (fuel : Nat) : Option (List ℚ) :=
  steppedLoop first step last fuel 0

theorem steppedLoop_spec (first step last : ℚ) :
    ∀ fuel n vs, steppedLoop first step last fuel n = some vs →
      (∀ j, j < vs.length → vs[j]? = some (first + ((n + j : Nat) : ℚ) * step)) ∧
      (∀ j, j < vs.length → first + ((n + j : Nat) : ℚ) * step ≤ last) ∧
      last < first + ((n + vs.length : Nat) : ℚ) * step := by
  intro fuel
  induction fuel with
  | zero => intro n vs h; exact absurd h (by simp [steppedLoop])
  | succ fuel ih =>
    intro n vs h
    rw [steppedLoop] at h
    by_cases hle : first + (n : ℚ) * step ≤ last
    · rw [if_pos hle] at h
      obtain ⟨vs', hvs', rfl⟩ : ∃ vs', steppedLoop first step last fuel (n + 1) = some vs' ∧
          vs = (first + (n : ℚ) * step) :: vs' := by
        cases hrec : steppedLoop first step last fuel (n + 1) with
        | none => rw [hrec] at h; exact absurd h (by simp)
        | some vs' =>
          rw [hrec] at h
          exact ⟨vs', rfl, (Option.some.inj h).symm⟩
      obtain ⟨ih1, ih2, ih3⟩ := ih (n + 1) vs' hvs'
      refine ⟨?_, ?_, ?_⟩
      · intro j hj
        cases j with
        | zero =>
          simp only [List.getElem?_cons_zero, Option.some.injEq]
          norm_num
        | succ j =>
          simp only [List.getElem?_cons_succ]
          rw [ih1 j (by simpa using hj)]
          congr 2
          push_cast
          ring
      · intro j hj
        cases j with
        | zero =>
          simpa using hle
        | succ j =>
          have := ih2 j (by simpa using hj)
          have hc : ((n + 1 + j : Nat) : ℚ) = ((n + (j + 1) : Nat) : ℚ) := by
            push_cast
            ring
          rw [hc] at this
          exact this
      · have hc : ((n + 1 + vs'.length : Nat) : ℚ)
            = ((n + (vs'.length + 1) : Nat) : ℚ) := by
          push_cast
          ring
        rw [hc] at ih3
        simpa using ih3
    · rw [if_neg hle] at h
      obtain rfl : vs = [] := (Option.some.inj h).symm
      refine ⟨?_, ?_, ?_⟩
      · intro j hj; simp at hj
      · intro j hj; simp at hj
      · simpa using not_le.mp hle

/-- C5: whenever the `steppedValueSet` loop terminates within its fuel, the
returned list consists of exactly the values `first + n * step` for
`n = 0, 1, 2, ...` — recomputed by count-times-step, the code's exact
accumulation rule — included while `first + n * step ≤ last`, and the first
excluded value exceeds `last`.  Floating-point arithmetic is modelled by
exact rationals; the witness instantiates `first = 0, step = 1/10,
last = 1` and obtains exactly 11 values whose final value is exactly 1. -/
theorem steppedValueSet_values (first step last : ℚ) (fuel : Nat) (vs : List ℚ)
    (h : steppedValueSet first step last fuel = some vs) :
    (∀ j, j < vs.length → vs[j]? = some (first + (j : ℚ) * step)) ∧
    (∀ j, j < vs.length → first + (j : ℚ) * step ≤ last) ∧
    last < first + (vs.length : ℚ) * step := by
  obtain ⟨h1, h2, h3⟩ := steppedLoop_spec first step last fuel 0 vs h
  refine ⟨?_, ?_, ?_⟩
  · intro j hj
    have := h1 j hj
    simpa using this
  · intro j hj
    have := h2 j hj
    simpa using this
  · simpa using h3

theorem steppedValueSet_values_witness :
    steppedValueSet 0 (1/10) 1 12
        = some [0, 1/10, 2/10, 3/10, 4/10, 5/10, 6/10, 7/10, 8/10, 9/10, 1] ∧
    ([(0 : ℚ), 1/10, 2/10, 3/10, 4/10, 5/10, 6/10, 7/10, 8/10, 9/10, 1].length = 11 ∧
     [(0 : ℚ), 1/10, 2/10, 3/10, 4/10, 5/10, 6/10, 7/10, 8/10, 9/10, 1].getLast? = some 1) ∧
    ((∀ j, j < ([(0 : ℚ), 1/10, 2/10, 3/10, 4/10, 5/10, 6/10, 7/10, 8/10, 9/10, 1]).length →
        ([(0 : ℚ), 1/10, 2/10, 3/10, 4/10, 5/10, 6/10, 7/10, 8/10, 9/10, 1])[j]?
          = some (0 + (j : ℚ) * (1/10))) ∧
     (∀ j, j < ([(0 : ℚ), 1/10, 2/10, 3/10, 4/10, 5/10, 6/10, 7/10, 8/10, 9/10, 1]).length →
        0 + (j : ℚ) * (1/10) ≤ 1) ∧
     (1 : ℚ) < 0 + (([(0 : ℚ), 1/10, 2/10, 3/10, 4/10, 5/10, 6/10, 7/10, 8/10, 9/10, 1]).length : ℚ)
        * (1/10)) :=
  ⟨by norm_num [steppedValueSet, steppedLoop], ⟨rfl, rfl⟩,
    steppedValueSet_values 0 (1/10) 1 12
      [0, 1/10, 2/10, 3/10, 4/10, 5/10, 6/10, 7/10, 8/10, 9/10, 1]
      (by norm_num [steppedValueSet, steppedLoop])⟩

/-- C10: `steppedValueSet` terminates with a finite list for every input
with `step > 0` (some fuel suffices), and also terminates immediately when
`first > last`; but for `step ≤ 0` with `first ≤ last` the loop never
terminates — no amount of fuel makes it return.  The function is total only
under the unstated precondition `step > 0 ∨ first > last`. -/
theorem steppedValueSet_termination (first step last : ℚ) :
    (0 < step → ∃ fuel vs, steppedValueSet first step last fuel = some vs) ∧
    (step ≤ 0 → first ≤ last → ∀ fuel, steppedValueSet first step last fuel = none) ∧
    (last < first → steppedValueSet first step last 1 = some []) := by
  refine ⟨?_, ?_, ?_⟩
  · intro hstep
    have key : ∀ m n, last < first + ((n + m : Nat) : ℚ) * step →
        ∃ vs, steppedLoop first step last (m + 1) n = some vs := by
      intro m
      induction m with
      | zero =>
        intro n hn
        rw [steppedLoop]
        rw [if_neg (by push_cast at hn ⊢; linarith)]
        exact ⟨[], rfl⟩
      | succ m ih =>
        intro n hn
        rw [steppedLoop]
        by_cases hle : first + (n : ℚ) * step ≤ last
        · rw [if_pos hle]
          obtain ⟨vs, hvs⟩ := ih (n + 1) (by
            have hc : ((n + 1 + m : Nat) : ℚ) = ((n + (m + 1) : Nat) : ℚ) := by
              push_cast; ring
            rw [hc]
            exact hn)
          rw [hvs]
          exact ⟨_, rfl⟩
        · rw [if_neg hle]
          exact ⟨[], rfl⟩
    obtain ⟨m, hm⟩ := exists_nat_gt ((last - first) / step)
    have hbound : last < first + ((0 + m : Nat) : ℚ) * step := by
      have h1 : (last - first) / step < (m : ℚ) := hm
      have h2 : last - first < (m : ℚ) * step := by
        have := (div_lt_iff₀ hstep).mp h1
        linarith
      push_cast
      linarith
    obtain ⟨vs, hvs⟩ := key m 0 hbound
    exact ⟨m + 1, vs, hvs⟩
  · intro hstep hfl
    have key : ∀ fuel n, steppedLoop first step last fuel n = none := by
      intro fuel
      induction fuel with
      | zero => intro n; rfl
      | succ fuel ih =>
        intro n
        rw [steppedLoop]
        have hval : first + (n : ℚ) * step ≤ last := by
          have h1 : (n : ℚ) * step ≤ 0 :=
            mul_nonpos_of_nonneg_of_nonpos (by positivity) hstep
          linarith
        rw [if_pos hval, ih]
        rfl
    intro fuel
    exact key fuel 0
  · intro hlf
    rw [steppedValueSet, steppedLoop]
    rw [if_neg (by push_cast; linarith)]

theorem steppedValueSet_termination_witness :
    ((0 : ℚ) < 1) ∧
    (∃ fuel vs, steppedValueSet 0 1 2 fuel = some vs) :=
  ⟨by norm_num, (steppedValueSet_termination 0 1 2).1 (by norm_num)⟩

/-- `line.partition(",")[0]`: the part of a line before the first comma
(the whole line when it has no comma) — the experiment-name key used
throughout `collect_data.py`. -/
def keyOf (s : String) : String := ⟨s.data.takeWhile fun c => c ≠ ','⟩

/-- Python `str.zfill(width)` for the sign-free strings produced by
`str(exp_i)` with `exp_i ≥ 0`: left-pad with `'0'` up to `width`. -/
def zfill (s : String) (width : Nat) : String :=
  if s.length < width then ⟨List.replicate (width - s.length) '0'⟩ ++ s else s

/-- `string.replace(line, '"', '')`: remove every double-quote character. -/
def removeQuotes (s : String) : String := ⟨s.data.filter fun c => c ≠ '"'⟩

/-- `append_data_to_cvs` of `mpirun_nlogo.py`: given the lines of the
simulation's `.dat` output artifact, append one result record to the
worker's csv content.  `out_line` is the experiment name, a comma, the
six-digit zero-padded combination index and a comma; if the data row
`lines[7]` exists (`len(lines) > 7`) it is appended with double quotes
removed, else only a newline is appended (an empty trailing field). -/
def append_data_to_cvs (lines : List String) (experiment_name : String) (exp_i : Nat)
    (csv : String) : Option String :=
  let out_line := experiment_name ++ "," ++ zfill (toString exp_i) 6 ++ ","
  if 7 < lines.length then
    (lines[7]?).map fun l7 => csv ++ (out_line ++ removeQuotes l7)
  else some (csv ++ (out_line ++ "\n"))

/-- C7: appending a result record never fails on a short output artifact:
with fewer than 8 lines the record is still appended, consisting of the
experiment name, the six-digit zero-padded index and an empty trailing
field; and when the data row (line index 7) is present, its contents with
double-quote characters removed are appended after those two fields. -/
theorem append_data_total (lines : List String) (name : String) (i : Nat) (csv : String) :
    (lines.length < 8 →
      append_data_to_cvs lines name i csv
        = some (csv ++ (name ++ "," ++ zfill (toString i) 6 ++ "," ++ "\n"))) ∧
    (∀ l7, lines[7]? = some l7 →
      append_data_to_cvs lines name i csv
        = some (csv ++ (name ++ "," ++ zfill (toString i) 6 ++ "," ++ removeQuotes l7))) := by
  constructor
  · intro hlen
    rw [append_data_to_cvs, if_neg (by omega)]
  · intro l7 h7
    have hlt : 7 < lines.length := by
      by_contra hc
      rw [List.getElem?_eq_none (by omega)] at h7
      exact absurd h7 (by simp)
    rw [append_data_to_cvs, if_pos hlt, h7]
    rfl

theorem append_data_total_witness :
    (([] : List String).length < 8) ∧
    (append_data_to_cvs [] "exp" 3 ""
      = some ("" ++ ("exp" ++ "," ++ zfill (toString 3) 6 ++ "," ++ "\n"))) :=
  ⟨by decide, (append_data_total [] "exp" 3 "").1 (by decide)⟩

/-- The header-insertion loop of `collect_data.py`: for one header line,
scan `all_lines` in order for the first line whose key equals the header's
key, insert the header immediately before it and `break`; when no line
matches, the loop ends without inserting anything. -/
def insertHeader (header : String) : List String → List String
  | [] => []
  | l :: rest =>
    if keyOf header = keyOf l then header :: l :: rest
    else l :: insertHeader header rest

theorem insertHeader_no_match (header : String) :
    ∀ lines : List String, (∀ l ∈ lines, keyOf l ≠ keyOf header) →
      insertHeader header lines = lines ∧ header ∉ lines := by
  intro lines
  induction lines with
  | nil => intro h; exact ⟨rfl, List.not_mem_nil _⟩
  | cons l rest ih =>
    intro h
    have h1 : keyOf l ≠ keyOf header := h l (List.mem_cons_self _ _)
    obtain ⟨ih1, ih2⟩ := ih fun p hp => h p (List.mem_cons_of_mem _ hp)
    constructor
    · rw [insertHeader, if_neg fun hc => h1 hc.symm, ih1]
    · intro hc
      rcases List.mem_cons.mp hc with rfl | hc2
      · exact h1 rfl
      · exact ih2 hc2

theorem insertHeader_first_match (header : String) :
    ∀ (pre : List String) (l : String) (post : List String),
      (∀ p ∈ pre, keyOf p ≠ keyOf header) → keyOf l = keyOf header →
      insertHeader header (pre ++ l :: post) = pre ++ header :: l :: post := by
  intro pre
  induction pre with
  | nil =>
    intro l post hpre hkey
    rw [List.nil_append, insertHeader, if_pos hkey.symm]
    rfl
  | cons p ps ih =>
    intro l post hpre hkey
    rw [List.cons_append, insertHeader,
      if_neg fun hc => hpre p (List.mem_cons_self _ _) hc.symm,
      ih l post (fun q hq => hpre q (List.mem_cons_of_mem _ hq)) hkey]
    rfl

/-- C8: a header whose leading comma-delimited field matches the leading
field of no record line is silently dropped — the line list is returned
unchanged and the header appears nowhere in it, with no error; a header
whose key does match some record is inserted exactly once, immediately
before the first matching record in the list. -/
theorem insertHeader_dangling_or_once (header : String) (lines : List String) :
    ((∀ l ∈ lines, keyOf l ≠ keyOf header) →
      insertHeader header lines = lines ∧ header ∉ lines) ∧
    (∀ pre l post, lines = pre ++ l :: post →
      (∀ p ∈ pre, keyOf p ≠ keyOf header) → keyOf l = keyOf header →
      insertHeader header lines = pre ++ header :: l :: post) := by
  constructor
  · exact insertHeader_no_match header lines
  · intro pre l post hl hpre hkey
    rw [hl]
    exact insertHeader_first_match header pre l post hpre hkey

theorem insertHeader_dangling_or_once_witness :
    ((∀ l ∈ ["e0,x", "e1,000000,1.0"], keyOf l ≠ keyOf "zz,run,val") ∧
     (insertHeader "zz,run,val" ["e0,x", "e1,000000,1.0"] = ["e0,x", "e1,000000,1.0"] ∧
      "zz,run,val" ∉ ["e0,x", "e1,000000,1.0"])) ∧
    ((["e0,x", "e1,000000,1.0", "e1,000001,2.0"]
        = ["e0,x"] ++ "e1,000000,1.0" :: ["e1,000001,2.0"]) ∧
     (∀ p ∈ ["e0,x"], keyOf p ≠ keyOf "e1,run,val") ∧
     (keyOf "e1,000000,1.0" = keyOf "e1,run,val") ∧
     (insertHeader "e1,run,val" ["e0,x", "e1,000000,1.0", "e1,000001,2.0"]
        = ["e0,x"] ++ "e1,run,val" :: "e1,000000,1.0" :: ["e1,000001,2.0"])) :=
  ⟨⟨by decide,
    (insertHeader_dangling_or_once "zz,run,val" ["e0,x", "e1,000000,1.0"]).1 (by decide)⟩,
   ⟨by decide, by decide, by decide,
    (insertHeader_dangling_or_once "e1,run,val"
        ["e0,x", "e1,000000,1.0", "e1,000001,2.0"]).2
      ["e0,x"] "e1,000000,1.0" ["e1,000001,2.0"] (by decide) (by decide) (by decide)⟩⟩

/-- The split-output loop at the end of `collect_data.py`: `cur` is the
content of the currently open `bs_NNN.csv` file and `bsexp` its key; a line
with the same key is written to the current file, a line with a different
key closes the current file and opens the next sequentially-numbered one;
the last file is closed after the loop. -/
def splitLoop : List String → String → List String → List (List String)
  | cur, _, [] => [cur]
  | cur, bsexp, line :: rest =>
    if keyOf line = bsexp then splitLoop (cur ++ [line]) bsexp rest
    else cur :: splitLoop [line] (keyOf line) rest

/-- The split-mode collator of `collect_data.py` applied to the sorted line
list: the first file's key is `all_lines[0].partition(",")[0]`; `none`
models the `IndexError` of `all_lines[0]` on an empty line list. -/
def splitFiles : List String → Option (List (List String))
  | [] => none
  | l :: rest => some (splitLoop [] (keyOf l) (l :: rest))

theorem splitLoop_same (k : String) :
    ∀ b cur rest, (∀ l ∈ b, keyOf l = k) →
      splitLoop cur k (b ++ rest) = splitLoop (cur ++ b) k rest := by
  intro b
  induction b with
  | nil => intro cur rest h; rw [List.nil_append, List.append_nil]
  | cons x xs ih =>
    intro cur rest h
    rw [List.cons_append, splitLoop, if_pos (h x (List.mem_cons_self _ _)),
      ih (cur ++ [x]) rest fun l hl => h l (List.mem_cons_of_mem _ hl),
      List.append_assoc, List.singleton_append]

/-- C9: on a sorted line list consisting of exactly two contiguous blocks
with distinct keys (two distinct experiment keys, records plus matching
header each), split mode produces exactly two sequentially numbered output
files, the first containing precisely the first block and the second
precisely the second, in the order the keys first appear. -/
theorem splitFiles_two_keys (b1 b2 : List String) (k1 k2 : String)
    (h1 : b1 ≠ []) (h2 : b2 ≠ [])
    (hk1 : ∀ l ∈ b1, keyOf l = k1) (hk2 : ∀ l ∈ b2, keyOf l = k2)
    (hne : k1 ≠ k2) :
    splitFiles (b1 ++ b2) = some [b1, b2] := by
  obtain ⟨x, xs, rfl⟩ := List.exists_cons_of_ne_nil h1
  obtain ⟨y, ys, rfl⟩ := List.exists_cons_of_ne_nil h2
  have hx : keyOf x = k1 := hk1 x (List.mem_cons_self _ _)
  have hy : keyOf y = k2 := hk2 y (List.mem_cons_self _ _)
  have hstep1 : splitFiles ((x :: xs) ++ y :: ys)
      = some (splitLoop [] (keyOf x) ((x :: xs) ++ y :: ys)) := rfl
  rw [hstep1, hx, splitLoop_same k1 (x :: xs) [] (y :: ys) hk1, List.nil_append,
    splitLoop, if_neg (by rw [hy]; exact fun hc => hne hc.symm), hy]
  have hlast : splitLoop [y] k2 ys = [y :: ys] := by
    have h := splitLoop_same k2 ys [y] [] fun l hl => hk2 l (List.mem_cons_of_mem _ hl)
    rw [List.append_nil] at h
    rw [h]
    rfl
  rw [hlast]

theorem splitFiles_two_keys_witness :
    ((["e1,run,val", "e1,000000,1.0"] : List String) ≠ []) ∧
    ((["e2,000000,2.0"] : List String) ≠ []) ∧
    (∀ l ∈ ["e1,run,val", "e1,000000,1.0"], keyOf l = "e1") ∧
    (∀ l ∈ ["e2,000000,2.0"], keyOf l = "e2") ∧
    ("e1" ≠ "e2") ∧
    (splitFiles (["e1,run,val", "e1,000000,1.0"] ++ ["e2,000000,2.0"])
      = some [["e1,run,val", "e1,000000,1.0"], ["e2,000000,2.0"]]) :=
  ⟨by decide, by decide, by decide, by decide, by decide,
    splitFiles_two_keys ["e1,run,val", "e1,000000,1.0"] ["e2,000000,2.0"] "e1" "e2"
      (by decide) (by decide) (by decide) (by decide) (by decide)⟩

/-- `get_last_run` of `mpirun_nlogo.py`, as written.  Its body opens
`csv_filename`, a name that is undefined inside the function (the parameter
is `cvs_filename`; `csv_filename` is a local of `main` only), so the
`os.path.isfile` branch raises an uncaught `NameError` whenever the
checkpoint file exists — modelled as `none`; the file contents are never
reached.  When the file does not exist it returns the no-checkpoint
sentinel `("", -1)`. -/
def get_last_run (fileExists : Bool) (_lines : List String) : Option (String × Int) :=
  if fileExists then none
  else some ("", -1)

/-- Python `string.split(s, sep)` for a one-character separator: split at
every occurrence of the separator, keeping empty fields (so the empty
string splits to one empty field). -/
def splitChar (sep : Char) : List Char → List (List Char)
  | [] => [[]]
  | c :: cs =>
    if c = sep then [] :: splitChar sep cs
    else
      match splitChar sep cs with
      | [] => [[c]]
      | w :: ws => (c :: w) :: ws

/-- The body of `get_last_run` under the charitable assumption that the
`open` call reads the intended file, whose lines are given here.  It keeps
the source's `for`/`else` structure: `for line in fout: last = line`
followed by `else: last = ""` — in Python the `else` arm of a `for` runs
whenever the loop ends without `break`, which is always the case here, so
`last` is unconditionally reset to the empty string before
`string.split(last, ",")`.  `int(part[1])` failing to parse is modelled
through `String.toInt?`. -/
def get_last_run_body (lines : List String) : Option (String × Int) :=
  let last := lines.foldl (fun _ line => line) ""
  let last := ""
  let part := (splitChar ',' last.data).map fun cs => (⟨cs⟩ : String)
  if 2 ≤ part.length then
    (part[1]?).bind fun p1 => (p1.toInt?).map fun n => (part.headD "", n)
  else some ("", -1)

/-- C3: checkpoint recovery is claimed to return the first two
comma-separated fields of the last line of the worker's own previous output
file when it exists, and `("", -1)` when it does not.  The code violates
this: with the file present it crashes on the undefined name
`csv_filename` (modelled as `none`), and even with the open fixed, the
`for`/`else` clause resets `last` to `""` so the parsed result is always
`("", -1)` rather than `("e1", 5)`.  Only the file-absent half of the claim
holds. -/
theorem get_last_run_checkpoint_bug :
    get_last_run true ["e1,000005,data"] = none ∧
    get_last_run_body ["e1,000005,data"] = some ("", -1) ∧
    get_last_run false [] = some ("", -1) := by
  refine ⟨rfl, ?_, rfl⟩
  rfl

/-- The `exp_all` list of `main` in `mpirun_nlogo.py`: materialized from
the `expandValueSets` generator only when `num_individual_runs > 1`; in the
`else` branch (`vsgen = [[]]`, the intended dummy expansion) `exp_all`
stays empty, and `vsgen` is never consulted by the loop below it. -/
def exp_all {α : Type} (value_tuples : List (String × List α)) : List (List (String × α)) :=
  if 1 < num_individual_runs value_tuples then (expandValueSets value_tuples).getD []
  else []

/-- The combination lookups of the inner loop of `main`:
`for exp_i in range(exp_start_i, num_individual_runs, mpi_size): exp = exp_all[exp_i]`.
`none` models the `IndexError` when some `exp_all[exp_i]` is out of
range. -/
def main_inner_combos {α : Type} (value_tuples : List (String × List α))
    (start W : Nat) : Option (List (List (String × α))) :=
  (pyRange start (num_individual_runs value_tuples) W).mapM
    fun k => (exp_all value_tuples)[k]?

/-- C6: the claim that an experiment with zero multi-value VariableSpecs
still produces and processes exactly one dummy (empty) combination fails on
the code: `expandValueSets` on an empty tuple list raises `IndexError`
(`none`) instead of yielding one empty combination, and the `main` loop for
the rank assigned index 0 crashes on `exp_all[0]` with `exp_all = []` — the
dummy `vsgen = [[]]` is created but never used. -/
theorem dummy_combination_crash :
    expandValueSets ([] : List (String × List String)) = none ∧
    exp_all ([] : List (String × List String)) = [] ∧
    main_inner_combos ([] : List (String × List String)) 0 1 = none := by
  refine ⟨rfl, rfl, ?_⟩
  decide

end MpirunNlogo
